import Mathlib

/-!
Shallow embedding of `Image_Transformer.py` (class `Transformer`).

Pixel coordinates are pairs of naturals, colors are RGB triples of
naturals, an image is a row-major list of rows of colors.  The global
random source is modelled as an explicit stream `rand : ℕ → ℕ`; a call
`random.randint(0, k)` at call counter `c` returns `rand c % (k+1)`
(every concrete execution of the Python corresponds to some stream and
conversely).  Fallible Python operations (IndexError on `list.pop`,
ValueError on `randint(0,-1)`, ZeroDivisionError on `//`) are modelled
by `Option`, `none` being the raised exception.
-/

namespace ImageTransformer

abbrev Coord := ℕ × ℕ

abbrev RGB := ℕ × ℕ × ℕ

abbrev Entry := Coord × Coord

abbrev Img := List (List RGB)

/-- Default entry used for out-of-range reads (never reached in-bounds). -/
def dEntry : Entry := ((0, 0), (0, 0))

/-! ### Pixel classification (`classify_pixels`, source lines 77-91) -/

/-- Configuration default `self.white_threshold = 224`. -/
def white_threshold : ℚ := 224

/-- Read the color of an image at a (row, column) coordinate. -/
def pixelAt (im : Img) (p : Coord) : RGB := (im.getD p.1 []).getD p.2 (0, 0, 0)

/-- Per-pixel mean of the channel values, `np.mean(..., axis=2)`. -/
def pixel_mean (p : RGB) : ℚ := ((p.1 : ℚ) + (p.2.1 : ℚ) + (p.2.2 : ℚ)) / 3

/-- Foreground coordinates of an image in row-major order: the list
`np.argwhere(means < white_threshold)` as built from `im_wherecolored`. -/
def wherecolored (im : Img) : List Coord :=
  (List.range im.length).flatMap (fun r =>
    (List.range ((im.getD r []).length)).filterMap (fun c =>
      if pixel_mean (pixelAt im (r, c)) < white_threshold then some (r, c) else none))

/-- The relationship string computed in `classify_pixels` from the two
colored-pixel counts (source lines 84-89). -/
def relationshipOf (n1 n2 : ℕ) : String :=
  if n1 = n2 then "one to one"
  else if n2 < n1 then "many to one"
  else "one to many"

/-- PIL `Image.size` is (width, height); rows model the height. -/
def imageSize (im : Img) : ℕ × ℕ := ((im.headD []).length, im.length)

/-- The dimension check `assert(self.im1.size==self.im2.size)` in
`open_images` (source line 75); `none` is the AssertionError. -/
def open_images (im1 im2 : Img) : Option (Img × Img) :=
  if imageSize im1 = imageSize im2 then some (im1, im2) else none

/-! ### Correspondence construction (`get_random_pixel_mappings`, lines 92-139) -/

/-- Python `xs.pop(i)`: the removed element and the remaining list, or
`none` for the IndexError when `i` is out of range. -/
def listPop {α : Type} (xs : List α) (i : ℕ) : Option (α × List α) :=
  if h : i < xs.length then
    some (xs.get ⟨i, h⟩, xs.take i ++ xs.drop (i + 1))
  else
    none

/-- The `one to one` loop (source lines 98-103):
`for i in range(len(in_pixels)): in_pix = in_pixels.pop(i); ...`.
`fuel` is the remaining number of loop iterations (`range` is computed
once, from the initial length) and `i` the loop variable.  Note the pop
index is the loop variable `i` while the pool shrinks. -/
def oneToOneAux ( rand : ℕ → ℕ) :
    ℕ → ℕ → List Coord → List Coord → List Entry → Option (List Entry)
  | 0, _, _, _, acc => some acc
  | fuel + 1, i, in_pixels, out_pixels, acc =>
    match listPop in_pixels i with
    | none => none
    | some (in_pix, in_pixels') =>
      if _h : 0 < out_pixels.length then
        match listPop out_pixels ( rand i % out_pixels.length) with
        | none => none
        | some (out_pix, out_pixels') =>
          oneToOneAux rand fuel (i + 1) in_pixels' out_pixels' (acc ++ [(in_pix, out_pix)])
      else none

/-- `higher_number = larger // smaller + 1` (source lines 105, 122). -/
def higher_number (larger smaller : ℕ) : ℕ := larger / smaller + 1

/-- `higher_number_count = larger % smaller` (source lines 106, 123). -/
def higher_number_count (larger smaller : ℕ) : ℕ := larger % smaller

/-- Inner loop `for j in range(cnt)` drawing `cnt` uniformly random
coordinates without replacement from `pool`, appending `mk p` for each
drawn `p` (source lines 111-114 / 117-120 and symmetrically 128-131 /
134-137).  `c` is the global random-call counter. -/
def drawLoop (mk : Coord → Entry) ( rand : ℕ → ℕ) :
    ℕ → ℕ → List Coord → List Entry → Option (ℕ × List Coord × List Entry)
  | 0, c, pool, acc => some (c, pool, acc)
  | j + 1, c, pool, acc =>
    if _h : 0 < pool.length then
      match listPop pool ( rand c % pool.length) with
      | none => none
      | some (p, pool') => drawLoop mk rand j (c + 1) pool' (acc ++ [mk p])
    else none

/-- Outer loop over the smaller-side pool (popped from the front, so it
is structural recursion on that list): the first `hnc` processed bases
each consume `hn` random coordinates, the rest `hn - 1` (source lines
108-120 and 125-137).  `placed` is `higher_numbers_placed`. -/
def groupLoop (mk : Coord → Coord → Entry) ( rand : ℕ → ℕ) (hn hnc : ℕ) :
    List Coord → ℕ → ℕ → List Coord → List Entry → Option (List Entry)
  | [], _, _, _, acc => some acc
  | b :: bases, placed, c, pool, acc =>
    if placed < hnc then
      match drawLoop (mk b) rand hn c pool acc with
      | none => none
      | some (c', pool', acc') => groupLoop mk rand hn hnc bases (placed + 1) c' pool' acc'
    else
      match drawLoop (mk b) rand (hn - 1) c pool acc with
      | none => none
      | some (c', pool', acc') => groupLoop mk rand hn hnc bases placed c' pool' acc'

/-- The `many to one` branch (source lines 104-120); entries are
`[in_pix, out_pix]` with the drawn coordinate on the source side.
`none` models the ZeroDivisionError of `//` when the target count is 0. -/
def many_to_one_mappings (in_pixels out_pixels : List Coord) ( rand : ℕ → ℕ) :
    Option (List Entry) :=
  if 0 < out_pixels.length then
    groupLoop (fun out_pix in_pix => (in_pix, out_pix)) rand
      (higher_number in_pixels.length out_pixels.length)
      (higher_number_count in_pixels.length out_pixels.length)
      out_pixels 0 0 in_pixels []
  else none

/-- The `one to many` branch (source lines 121-137), symmetric: the
drawn coordinate is on the target side. -/
def one_to_many_mappings (in_pixels out_pixels : List Coord) ( rand : ℕ → ℕ) :
    Option (List Entry) :=
  if 0 < in_pixels.length then
    groupLoop (fun in_pix out_pix => (in_pix, out_pix)) rand
      (higher_number out_pixels.length in_pixels.length)
      (higher_number_count out_pixels.length in_pixels.length)
      in_pixels 0 0 out_pixels []
  else none

/-- `get_random_pixel_mappings` (source lines 92-137): dispatch on the
relationship string computed by `classify_pixels` from the two
foreground counts (which equal the lengths of the argwhere lists). -/
def get_random_pixel_mappings (in_pixels out_pixels : List Coord) ( rand : ℕ → ℕ) :
    Option (List Entry) :=
  let rel := relationshipOf in_pixels.length out_pixels.length
  if rel = "one to one" then oneToOneAux rand in_pixels.length 0 in_pixels out_pixels []
  else if rel = "many to one" then many_to_one_mappings in_pixels out_pixels rand
  else one_to_many_mappings in_pixels out_pixels rand

/-! ### Scoring (`get_score`, source lines 140-147) -/

/-- Aggregate Euclidean displacement cost: for each pair,
`delta_x = pair[1][0]-pair[0][0]`, `delta_y = pair[1][1]-pair[0][1]`,
`aggregate += (delta_x**2 + delta_y**2)**.5`, idealizing the Python
floats as reals. -/
noncomputable def get_score (pairings : List Entry) : ℝ :=
  pairings.foldl
    (fun aggregate pair =>
      aggregate +
        Real.sqrt (((pair.2.1 : ℝ) - (pair.1.1 : ℝ)) ^ 2 +
          ((pair.2.2 : ℝ) - (pair.1.2 : ℝ)) ^ 2))
    0

/-! ### Mutation (`mutate`, source lines 148-178)

In the Python, `new_pairings = list(self.pairings)` is a shallow copy:
the two-element entry lists are shared between `self.pairings` and
every clone, so an endpoint swap executed while building one clone
mutates the single shared entry store that all later clones start
from.  The embedding therefore threads one evolving `shared` list
through the clone loop and snapshots it (`copy.deepcopy`) after each
clone. -/

/-- The movable endpoint of an entry: index 1 (target) when
`self.relationship in ("one to many","one to one")`, index 0 (source)
otherwise; `mov2 = true` means the target endpoint moves. -/
def getMov (mov2 : Bool) (e : Entry) : Coord := if mov2 then e.2 else e.1

/-- Write the movable endpoint of an entry. -/
def setMov (mov2 : Bool) (e : Entry) (c : Coord) : Entry :=
  if mov2 then (e.1, c) else (c, e.2)

/-- Whether the relationship string makes the target endpoint the
movable one (source line 156). -/
def movesTarget (rel : String) : Bool := rel = "one to many" || rel = "one to one"

/-- One endpoint swap (source lines 157-159 / 161-163):
`temp = l[tp][mov]; l[tp][mov] = l[i][mov]; l[i][mov] = temp`,
reads and writes in program order. -/
def swapMovable (mov2 : Bool) (l : List Entry) (i tp : ℕ) : List Entry :=
  let temp := getMov mov2 (l.getD tp dEntry)
  let l1 := l.set tp (setMov mov2 (l.getD tp dEntry) (getMov mov2 (l.getD i dEntry)))
  l1.set i (setMov mov2 (l1.getD i dEntry) temp)

/-- One clone's mutation pass (source lines 153-163): for each entry
index `i` (the range is computed once from the initial length), with
the sampled decision `dec i`, swap with partner `prt i % len`
(`random.randint(0, len(new_pairings)-1)`). -/
def clonePass (mov2 : Bool) (dec : ℕ → Bool) (prt : ℕ → ℕ) (l : List Entry) : List Entry :=
  (List.range l.length).foldl
    (fun acc i => if dec i then swapMovable mov2 acc i (prt i % acc.length) else acc) l

/-- The snapshots appended by the clone loop (source lines 151-164),
clone indices `idx, idx+1, ...`: each clone mutates the shared entry
store and a deep-copied snapshot of it is appended to the population. -/
def cloneSnapshots (mov2 : Bool) (dec : ℕ → ℕ → Bool) (prt : ℕ → ℕ → ℕ) :
    ℕ → ℕ → List Entry → List (List Entry)
  | _, 0, _ => []
  | idx, k + 1, shared =>
    let shared' := clonePass mov2 (dec idx) (prt idx) shared
    shared' :: cloneSnapshots mov2 dec prt (idx + 1) k shared'

/-- The population of one generation (source lines 150-164):
`[copy.deepcopy(self.pairings)]` followed by the `population_size - 1`
clone snapshots. -/
def mutatePopulation (mov2 : Bool) (dec : ℕ → ℕ → Bool) (prt : ℕ → ℕ → ℕ)
    (population_size : ℕ) (pairings : List Entry) : List (List Entry) :=
  pairings :: cloneSnapshots mov2 dec prt 1 (population_size - 1) pairings

/-- The optimizer state fields of the `Transformer` object touched by
`mutate`. -/
structure TState where
  pairings : List Entry
  best_score : ℝ
  last_best_score : ℝ
  same_score_count : ℕ
  generation_count : ℕ
  converged : Bool

/-- Python `min(scores)` for the nonempty score list. -/
noncomputable def listMin : List ℝ → ℝ
  | [] => 0
  | x :: xs => xs.foldl min x

open Classical in
/-- One generation of `mutate` (source lines 148-178): build the
population, score it, adopt the earliest minimum-cost candidate
(`scores.index(min(scores))`), then update the stagnation counter and
the convergence flag exactly as the `if/elif` does. -/
noncomputable def mutate (mov2 : Bool) (dec : ℕ → ℕ → Bool) (prt : ℕ → ℕ → ℕ)
    (population_size convergence_threshold : ℕ) (s : TState) : TState :=
  let population := mutatePopulation mov2 dec prt population_size s.pairings
  let scores := population.map get_score
  let m := listMin scores
  let best_index := scores.findIdx (fun x => decide (x = m))
  let pairings' := population.getD best_index []
  if m = s.last_best_score then
    let same' := s.same_score_count + 1
    ⟨pairings', m, m, same', s.generation_count + 1,
      if same' = convergence_threshold then true else s.converged⟩
  else if m < s.last_best_score then
    ⟨pairings', m, m, 0, s.generation_count + 1, s.converged⟩
  else
    ⟨pairings', m, m, s.same_score_count, s.generation_count + 1, s.converged⟩

/-! ### Frame interpolation (`generate_frames`, source lines 192-246) -/

/-- `np.float32.astype(np.int32)`: truncation toward zero. -/
def truncQ (q : ℚ) : ℤ := if q < 0 then ⌈q⌉ else ⌊q⌋

/-- An intermediate frame: a white canvas of the source image's size
plus the ordered `draw.point` calls, each an (x, y) location (column
first — source line 227 swaps the coordinates) and an RGB color. -/
structure RenderedFrame where
  canvas : ℕ × ℕ
  background : RGB
  points : List ((ℚ × ℚ) × (ℤ × ℤ × ℤ))
deriving DecidableEq

/-- One intermediate frame `i` (source lines 203-235): weight
`ratio = i / number_of_frames`; per entry, position and color are
`start + (end - start) * ratio` componentwise (colors looked up at the
entry's source/target coordinate), colors truncated to integers; only
the first `len(start_points) - 1` entries are drawn (source line 224). -/
def renderFrame (im1 im2 : Img) (pairings : List Entry) (number_of_frames i : ℕ) :
    RenderedFrame :=
  let wgt : ℚ := (i : ℚ) / (number_of_frames : ℚ)
  let start_points := pairings.map Prod.fst
  let end_points := pairings.map Prod.snd
  let start_colors := start_points.map (pixelAt im1)
  let end_colors := end_points.map (pixelAt im2)
  let pts := (List.range (start_points.length - 1)).map (fun j =>
    let sp := start_points.getD j (0, 0)
    let ep := end_points.getD j (0, 0)
    let sc := start_colors.getD j (0, 0, 0)
    let ec := end_colors.getD j (0, 0, 0)
    let cur_row : ℚ := (sp.1 : ℚ) + ((ep.1 : ℚ) - (sp.1 : ℚ)) * wgt
    let cur_col : ℚ := (sp.2 : ℚ) + ((ep.2 : ℚ) - (sp.2 : ℚ)) * wgt
    let col_r : ℤ := truncQ ((sc.1 : ℚ) + ((ec.1 : ℚ) - (sc.1 : ℚ)) * wgt)
    let col_g : ℤ := truncQ ((sc.2.1 : ℚ) + ((ec.2.1 : ℚ) - (sc.2.1 : ℚ)) * wgt)
    let col_b : ℤ := truncQ ((sc.2.2 : ℚ) + ((ec.2.2 : ℚ) - (sc.2.2 : ℚ)) * wgt)
    ((cur_col, cur_row), (col_r, col_g, col_b)))
  ⟨imageSize im1, (255, 255, 255), pts⟩

/-- The specification formula for linear interpolation at weight `w`:
`start + w * (end - start)` (the code computes `start + (end - start) * w`,
which section-4.5 of the spec states in this order). -/
def interpSpec (w s t : ℚ) : ℚ := s + w * (t - s)

/-- A saved frame: either an unmodified input image saved directly
(`self.im1.save` / `self.im2.save`) or a rendered intermediate frame. -/
inductive Frame where
  | image (im : Img)
  | drawn (f : RenderedFrame)
deriving DecidableEq

/-- The ordered sequence of saved frames (source lines 192-246):
frame 0 is the source image, frames `1 .. number_of_frames - 1` are
rendered (`for i in range(1, self.number_of_frames)`), and frame
`number_of_frames` is the target image. -/
def generate_frames (im1 im2 : Img) (pairings : List Entry) (number_of_frames : ℕ) :
    List Frame :=
  [Frame.image im1]
    ++ (List.range' 1 (number_of_frames - 1)).map
        (fun i => Frame.drawn (renderFrame im1 im2 pairings number_of_frames i))
    ++ [Frame.image im2]

/-! ### Helper lemmas about `listPop` -/

lemma listPop_none {α : Type} (xs : List α) (i : ℕ) (h : xs.length ≤ i) :
    listPop xs i = none := by
  simp [listPop, Nat.not_lt.mpr h]

lemma listPop_some {α : Type} (xs : List α) (i : ℕ) (h : i < xs.length) :
    listPop xs i = some (xs.get ⟨i, h⟩, xs.take i ++ xs.drop (i + 1)) := by
  simp [listPop, h]

lemma remove_length {α : Type} (xs : List α) (i : ℕ) (h : i < xs.length) :
    (xs.take i ++ xs.drop (i + 1)).length = xs.length - 1 := by
  simp only [List.length_append, List.length_take, List.length_drop]
  omega

lemma remove_mset {α : Type} (xs : List α) (i : ℕ) (h : i < xs.length) :
    (xs.get ⟨i, h⟩ ::ₘ (↑(xs.take i ++ xs.drop (i + 1)) : Multiset α)) = ↑xs := by
  rw [Multiset.cons_coe, Multiset.coe_eq_coe]
  conv_rhs => rw [← List.take_append_drop i xs, List.drop_eq_getElem_cons h]
  simp only [List.get_eq_getElem]
  exact List.perm_middle.symm

/-! ### The `one to one` loop crashes for pools of two or more -/

/-- Along the `one to one` loop the pool length always equals the
remaining fuel; as soon as `2 ≤ fuel + i`, iteration eventually asks
`pop` for an index at least as large as the pool, i.e. an IndexError. -/
lemma oneToOneAux_none ( rand : ℕ → ℕ) :
    ∀ fuel i (in_pixels out_pixels : List Coord) (acc : List Entry),
      in_pixels.length = fuel → 2 ≤ fuel + i → 0 < fuel →
      oneToOneAux rand fuel i in_pixels out_pixels acc = none := by
  intro fuel
  induction fuel with
  | zero => intro i inp outp acc _ _ hpos; omega
  | succ f ih =>
    intro i inp outp acc hlen h2 _
    rw [oneToOneAux]
    split
    · rfl
    case h_2 in_pix in_pixels' heq =>
      have hi : i < inp.length := by
        by_contra hnot
        rw [listPop_none inp i (Nat.not_lt.mp hnot)] at heq
        exact Option.noConfusion heq
      rw [listPop_some inp i hi] at heq
      injection heq with heq'
      have hrest : inp.take i ++ inp.drop (i + 1) = in_pixels' :=
        congrArg Prod.snd heq'
      have hlen' : in_pixels'.length = f := by
        rw [← hrest, remove_length inp i hi, hlen]
        omega
      by_cases ho : 0 < outp.length
      · rw [dif_pos ho]
        split
        · rfl
        · exact ih (i + 1) _ _ _ hlen' (by omega) (by omega)
      · rw [dif_neg ho]

/-! ### Relationship dispatch -/

lemma relationship_one_to_one {n1 n2 : ℕ} (h : n1 = n2) :
    relationshipOf n1 n2 = "one to one" := by
  simp [relationshipOf, h]

lemma relationship_many {n1 n2 : ℕ} (h : n2 < n1) :
    relationshipOf n1 n2 = "many to one" := by
  have h1 : n1 ≠ n2 := by omega
  simp [relationshipOf, h1, h]

lemma relationship_one_to_many {n1 n2 : ℕ} (h : n1 < n2) :
    relationshipOf n1 n2 = "one to many" := by
  have h1 : n1 ≠ n2 := by omega
  have h2 : ¬ n2 < n1 := by omega
  simp [relationshipOf, h1, h2]

lemma grpm_eq_one_to_one (in_pixels out_pixels : List Coord) ( rand : ℕ → ℕ)
    (h : in_pixels.length = out_pixels.length) :
    get_random_pixel_mappings in_pixels out_pixels rand
      = oneToOneAux rand in_pixels.length 0 in_pixels out_pixels [] := by
  simp [get_random_pixel_mappings, relationship_one_to_one h]

lemma grpm_eq_many (in_pixels out_pixels : List Coord) ( rand : ℕ → ℕ)
    (h : out_pixels.length < in_pixels.length) :
    get_random_pixel_mappings in_pixels out_pixels rand
      = many_to_one_mappings in_pixels out_pixels rand := by
  simp [get_random_pixel_mappings, relationship_many h]

lemma grpm_eq_one_to_many (in_pixels out_pixels : List Coord) ( rand : ℕ → ℕ)
    (h : in_pixels.length < out_pixels.length) :
    get_random_pixel_mappings in_pixels out_pixels rand
      = one_to_many_mappings in_pixels out_pixels rand := by
  simp [get_random_pixel_mappings, relationship_one_to_many h]

/-- C1.  For every pair of foreground sets with strictly positive counts
on both sides, `get_random_pixel_mappings` terminates successfully with
no pool index out of bounds; in the OneToOne case it empties both pools,
for every count `n ≥ 1`.  REFUTED in general: the `one to one` loop pops
`in_pixels.pop(i)` with the loop variable as index while the pool
shrinks, so already for two foreground pixels per side (this concrete
failing input), iteration `i = 1` pops index 1 of a one-element pool —
an IndexError — whatever the random stream does. -/
theorem c1_one_to_one_pool_index_out_of_bounds :
    ∀ ( rand : ℕ → ℕ),
      get_random_pixel_mappings [(0, 0), (0, 1)] [(1, 0), (1, 1)] rand = none := by
  intro rand
  rw [grpm_eq_one_to_one _ _ rand (by decide)]
  exact oneToOneAux_none rand 2 0 _ _ _ rfl (by omega) (by omega)

/-- C6 counterexample.  Two all-white 1×1 images have zero foreground
pixels on both sides, yet nothing fails anywhere: classification
computes the `one to one` relationship and the builder happily returns
the empty correspondence, so the downstream pipeline runs.  (With zero
foreground on exactly one side the failure that does occur is a
ZeroDivisionError inside `get_random_pixel_mappings`, not a check at the
classification boundary: classification still returns a relationship
string.) -/
theorem c6_counterexample :
    wherecolored [[(255, 255, 255)]] = [] ∧
    wherecolored [[(0, 0, 0)]] = [(0, 0)] ∧
    relationshipOf 0 0 = "one to one" ∧
    get_random_pixel_mappings [] [] (fun _ => 0) = some [] ∧
    relationshipOf 0 1 = "one to many" ∧
    get_random_pixel_mappings [] [(0, 0)] (fun _ => 0) = none := by
  refine ⟨?_, ?_, by decide, by decide, by decide, by decide⟩
  · simp [wherecolored, pixelAt, pixel_mean, white_threshold, List.range_succ]
    norm_num
  · simp [wherecolored, pixelAt, pixel_mean, white_threshold, List.range_succ]

/-- C6 amended.  The dimension mismatch does fail fast at image opening
(the `assert` in `open_images`).  Zero foreground on both sides is not
detected at all: the builder returns the empty correspondence and the
pipeline proceeds.  Zero foreground on exactly one side raises a
ZeroDivisionError inside `get_random_pixel_mappings` (correspondence
construction), not at the classification boundary. -/
theorem c6_precondition_failures_located :
    ∀ (im1 im2 : Img) (in_pixels out_pixels : List Coord) ( rand : ℕ → ℕ),
      (imageSize im1 ≠ imageSize im2 → open_images im1 im2 = none) ∧
      (in_pixels.length = 0 → out_pixels.length = 0 →
        get_random_pixel_mappings in_pixels out_pixels rand = some []) ∧
      (in_pixels.length = 0 → 0 < out_pixels.length →
        get_random_pixel_mappings in_pixels out_pixels rand = none) ∧
      (0 < in_pixels.length → out_pixels.length = 0 →
        get_random_pixel_mappings in_pixels out_pixels rand = none) := by
  intro im1 im2 inp outp rand
  refine ⟨fun hne => by simp [open_images, hne], fun h1 h2 => ?_, fun h1 h2 => ?_,
    fun h1 h2 => ?_⟩
  · rw [grpm_eq_one_to_one _ _ rand (by omega)]
    obtain rfl : inp = [] := List.length_eq_zero.mp h1
    rfl
  · rw [grpm_eq_one_to_many _ _ rand (by omega)]
    rw [one_to_many_mappings, if_neg (by omega)]
  · rw [grpm_eq_many _ _ rand (by omega)]
    rw [many_to_one_mappings, if_neg (by omega)]

/-- C6 amended, witnessed at concrete inputs: a 1×1 image against an
empty image for the dimension check, and empty/one-pixel foreground
pools for the three zero-count behaviours. -/
theorem c6_precondition_failures_located_witness :
    imageSize [[(0, 0, 0)]] ≠ imageSize ([] : Img) ∧
    open_images [[(0, 0, 0)]] [] = none ∧
    get_random_pixel_mappings [] [] (fun _ => 0) = some [] ∧
    get_random_pixel_mappings [] [(0, 0)] (fun _ => 0) = none ∧
    get_random_pixel_mappings [(0, 0)] [] (fun _ => 0) = none := by
  refine ⟨by decide, ?_, ?_, ?_, ?_⟩
  · exact (c6_precondition_failures_located [[(0, 0, 0)]] [] [] [] (fun _ => 0)).1
      (by decide)
  · exact (c6_precondition_failures_located [] [] [] [] (fun _ => 0)).2.1 rfl rfl
  · exact (c6_precondition_failures_located [] [] [] [(0, 0)] (fun _ => 0)).2.2.1 rfl
      (by decide)
  · exact (c6_precondition_failures_located [] [] [(0, 0)] [] (fun _ => 0)).2.2.2
      (by decide) rfl

/-! ### Behaviour of the inner draw loop -/

/-- `drawLoop` with enough pool always succeeds: it draws `j` distinct
pool positions, appends their images under `mk` and removes them from
the pool. -/
lemma drawLoop_spec (mk : Coord → Entry) ( rand : ℕ → ℕ) :
    ∀ (j c : ℕ) (pool : List Coord) (acc : List Entry), j ≤ pool.length →
      ∃ (c' : ℕ) (pool' drawn : List Coord),
        drawLoop mk rand j c pool acc = some (c', pool', acc ++ drawn.map mk) ∧
        drawn.length = j ∧ pool'.length = pool.length - j ∧
        ((↑drawn : Multiset Coord) + ↑pool') = ↑pool := by
  intro j
  induction j with
  | zero =>
    intro c pool acc _
    exact ⟨c, pool, [], by simp [drawLoop], rfl, by omega, by simp⟩
  | succ n ih =>
    intro c pool acc hj
    have hpos : 0 < pool.length := by omega
    have hidx : rand c % pool.length < pool.length := Nat.mod_lt _ hpos
    have hstep : drawLoop mk rand (n + 1) c pool acc
        = drawLoop mk rand n (c + 1)
            (pool.take ( rand c % pool.length) ++ pool.drop ( rand c % pool.length + 1))
            (acc ++ [mk (pool.get ⟨ rand c % pool.length, hidx⟩)]) := by
      rw [drawLoop, dif_pos hpos, listPop_some pool _ hidx]
    obtain ⟨c', pool', drawn, heq, hlen, hplen, hms⟩ :=
      ih (c + 1) _ (acc ++ [mk (pool.get ⟨ rand c % pool.length, hidx⟩)])
        (by rw [remove_length pool _ hidx]; omega)
    refine ⟨c', pool', pool.get ⟨ rand c % pool.length, hidx⟩ :: drawn, ?_, ?_, ?_, ?_⟩
    · rw [hstep, heq]
      simp
    · simp [hlen]
    · rw [hplen, remove_length pool _ hidx]
      omega
    · rw [← Multiset.cons_coe, Multiset.cons_add, hms]
      exact remove_mset pool _ hidx

/-! ### Behaviour of the outer group loop -/

lemma groupLoop_cons_pos (mk : Coord → Coord → Entry) ( rand : ℕ → ℕ)
    {hn hnc : ℕ} {b : Coord} {bases : List Coord} {placed c : ℕ}
    {pool : List Coord} {acc : List Entry} {c' : ℕ} {pool' : List Coord}
    {acc' : List Entry} (hp : placed < hnc)
    (h : drawLoop (mk b) rand hn c pool acc = some (c', pool', acc')) :
    groupLoop mk rand hn hnc (b :: bases) placed c pool acc
      = groupLoop mk rand hn hnc bases (placed + 1) c' pool' acc' := by
  rw [groupLoop, if_pos hp, h]

lemma groupLoop_cons_neg (mk : Coord → Coord → Entry) ( rand : ℕ → ℕ)
    {hn hnc : ℕ} {b : Coord} {bases : List Coord} {placed c : ℕ}
    {pool : List Coord} {acc : List Entry} {c' : ℕ} {pool' : List Coord}
    {acc' : List Entry} (hp : ¬ placed < hnc)
    (h : drawLoop (mk b) rand (hn - 1) c pool acc = some (c', pool', acc')) :
    groupLoop mk rand hn hnc (b :: bases) placed c pool acc
      = groupLoop mk rand hn hnc bases placed c' pool' acc' := by
  rw [groupLoop, if_neg hp, h]

/-- Full characterization of the outer loop: starting with
`hnc = placed + d` remaining larger groups and a pool of exactly the
still-needed size, it succeeds and produces, for the `k`-th base, a
block of `hn` draws while `placed + k < hnc` and `hn - 1` draws
afterwards; the draws exhaust the pool. -/
lemma groupLoop_spec (mk : Coord → Coord → Entry) ( rand : ℕ → ℕ) (hn hnc : ℕ) :
    ∀ (bases : List Coord) (placed c : ℕ) (pool : List Coord) (acc : List Entry)
      (d : ℕ),
      hnc = placed + d → d ≤ bases.length →
      pool.length = d * hn + (bases.length - d) * (hn - 1) →
      ∃ draws : List (List Coord),
        groupLoop mk rand hn hnc bases placed c pool acc
          = some (acc ++ (bases.zip draws).flatMap (fun bd => bd.2.map (mk bd.1))) ∧
        draws.length = bases.length ∧
        (∀ k, k < bases.length →
          (draws.getD k []).length = if placed + k < hnc then hn else hn - 1) ∧
        ((↑draws.flatten : Multiset Coord) = ↑pool) := by
  intro bases
  induction bases with
  | nil =>
    intro placed c pool acc d hd hdL hpool
    simp only [List.length_nil] at hdL hpool
    have hd0 : d = 0 := by omega
    subst hd0
    simp only [Nat.zero_mul, Nat.zero_sub, Nat.zero_add] at hpool
    have hp0 : pool = [] := List.length_eq_zero.mp (by omega)
    subst hp0
    refine ⟨[], by simp [groupLoop], rfl, fun k hk => absurd hk (by omega), by simp⟩
  | cons b bases ih =>
    intro placed c pool acc d hd hdL hpool
    simp only [List.length_cons] at hdL hpool
    by_cases hp : placed < hnc
    · have hd1 : 1 ≤ d := by omega
      obtain ⟨d', rfl⟩ : ∃ d', d = d' + 1 := ⟨d - 1, by omega⟩
      have hdL' : d' ≤ bases.length := by omega
      rw [show bases.length + 1 - (d' + 1) = bases.length - d' from by omega,
        add_one_mul] at hpool
      have hA : d' * hn + hn + (bases.length - d') * (hn - 1) = pool.length := hpool.symm
      have hble : hn ≤ pool.length := by omega
      obtain ⟨c', pool', drawn, hdl, hdrawn_len, hpool'_len, hms⟩ :=
        drawLoop_spec (mk b) rand hn c pool acc hble
      obtain ⟨draws', hgl, hdraws_len, hidx, hms'⟩ :=
        ih (placed + 1) c' pool' (acc ++ drawn.map (mk b)) d' (by omega) hdL'
          (by rw [hpool'_len]; omega)
      refine ⟨drawn :: draws', ?_, by simp [hdraws_len], ?_, ?_⟩
      · rw [groupLoop_cons_pos mk rand hp hdl, hgl]
        simp [List.zip_cons_cons, List.append_assoc]
      · intro k hk
        cases k with
        | zero =>
          simp only [List.getD_cons_zero, Nat.add_zero, if_pos hp]
          exact hdrawn_len
        | succ k' =>
          have hk' : k' < bases.length := by
            simp only [List.length_cons] at hk; omega
          have := hidx k' hk'
          rw [List.getD_cons_succ]
          rw [show placed + (k' + 1) = placed + 1 + k' from by omega]
          exact this
      · rw [List.flatten_cons, ← Multiset.coe_add, hms', hms]
    · have hd0 : d = 0 := by omega
      subst hd0
      have hplaced : hnc = placed := by omega
      simp only [Nat.zero_mul, Nat.zero_add, Nat.sub_zero, add_one_mul] at hpool
      have hble : hn - 1 ≤ pool.length := by omega
      obtain ⟨c', pool', drawn, hdl, hdrawn_len, hpool'_len, hms⟩ :=
        drawLoop_spec (mk b) rand (hn - 1) c pool acc hble
      obtain ⟨draws', hgl, hdraws_len, hidx, hms'⟩ :=
        ih placed c' pool' (acc ++ drawn.map (mk b)) 0 (by omega) (by omega)
          (by rw [hpool'_len]
              simp only [Nat.sub_zero, Nat.zero_mul, Nat.zero_add]
              omega)
      refine ⟨drawn :: draws', ?_, by simp [hdraws_len], ?_, ?_⟩
      · rw [groupLoop_cons_neg mk rand hp hdl, hgl]
        simp [List.zip_cons_cons, List.append_assoc]
      · intro k hk
        cases k with
        | zero =>
          simp only [List.getD_cons_zero, Nat.add_zero, if_neg hp]
          exact hdrawn_len
        | succ k' =>
          have hk' : k' < bases.length := by
            simp only [List.length_cons] at hk; omega
          have := hidx k' hk'
          rw [List.getD_cons_succ]
          rw [if_neg (by omega)] at this ⊢
          exact this
      · rw [List.flatten_cons, ← Multiset.coe_add, hms', hms]

/-! ### Reading the two columns of a built block structure -/

/-- Projecting the drawn side of every entry of the flat block list
recovers the concatenation of the drawn blocks. -/
lemma zipFlat_map_drawn (mk : Coord → Coord → Entry) (proj : Entry → Coord)
    (hproj : ∀ b p, proj (mk b p) = p) :
    ∀ (bases : List Coord) (draws : List (List Coord)),
      draws.length = bases.length →
      ((bases.zip draws).flatMap (fun bd => bd.2.map (mk bd.1))).map proj
        = draws.flatten := by
  intro bases
  induction bases with
  | nil =>
    intro draws hlen
    obtain rfl : draws = [] := List.length_eq_zero.mp (by simpa using hlen)
    simp
  | cons b bases ih =>
    intro draws hlen
    cases draws with
    | nil => simp at hlen
    | cons dr draws =>
      simp only [List.length_cons] at hlen
      simp only [List.zip_cons_cons, List.flatMap_cons, List.map_append,
        List.flatten_cons, List.map_map]
      rw [ih draws (by omega)]
      congr 1
      have : (proj ∘ mk b) = id := funext fun p => hproj b p
      rw [this, List.map_id]

/-- Projecting the base side of every entry of the flat block list
yields, per base, a `replicate` of the block length. -/
lemma zipFlat_map_base (mk : Coord → Coord → Entry) (proj : Entry → Coord)
    (hproj : ∀ b p, proj (mk b p) = b) :
    ∀ (bases : List Coord) (draws : List (List Coord)),
      ((bases.zip draws).flatMap (fun bd => bd.2.map (mk bd.1))).map proj
        = (bases.zip draws).flatMap (fun bd => List.replicate bd.2.length bd.1) := by
  intro bases
  induction bases with
  | nil => intro draws; simp
  | cons b bases ih =>
    intro draws
    cases draws with
    | nil => simp
    | cons dr draws =>
      simp only [List.zip_cons_cons, List.flatMap_cons, List.map_append,
        List.map_map]
      rw [ih draws]
      congr 1
      have : (proj ∘ mk b) = fun _ => b := funext fun p => hproj b p
      rw [this]
      exact List.map_const' dr b

/-- A coordinate not among the bases never occurs on the base side. -/
lemma zipFlat_count_base_zero :
    ∀ (bases : List Coord) (draws : List (List Coord)) (x : Coord), x ∉ bases →
      ((bases.zip draws).flatMap
        (fun bd => List.replicate bd.2.length bd.1)).count x = 0 := by
  intro bases
  induction bases with
  | nil => intro draws x _; simp
  | cons b bases ih =>
    intro draws x hx
    cases draws with
    | nil => simp
    | cons dr draws =>
      simp only [List.mem_cons, not_or] at hx
      simp only [List.zip_cons_cons, List.flatMap_cons, List.count_append]
      have hne : ¬ (b == x) = true := by
        simp only [beq_iff_eq]
        intro h
        exact hx.1 h.symm
      rw [List.count_replicate, if_neg hne, ih draws x hx.2]

/-- With nodup bases, the base-side multiplicity of the `k`-th base is
exactly the length of its block. -/
lemma zipFlat_count_base_idx :
    ∀ (bases : List Coord) (draws : List (List Coord)) (k : ℕ),
      bases.Nodup → draws.length = bases.length → k < bases.length →
      ((bases.zip draws).flatMap
        (fun bd => List.replicate bd.2.length bd.1)).count (bases.getD k (0, 0))
        = (draws.getD k []).length := by
  intro bases
  induction bases with
  | nil => intro draws k _ _ hk; simp at hk
  | cons b bases ih =>
    intro draws k hnd hlen hk
    cases draws with
    | nil => simp at hlen
    | cons dr draws =>
      simp only [List.length_cons] at hlen hk
      simp only [List.nodup_cons] at hnd
      simp only [List.zip_cons_cons, List.flatMap_cons, List.count_append]
      cases k with
      | zero =>
        simp only [List.getD_cons_zero]
        rw [List.count_replicate, if_pos (beq_self_eq_true b),
          zipFlat_count_base_zero bases draws b hnd.1]
        omega
      | succ k' =>
        simp only [List.getD_cons_succ]
        have hmem : bases.getD k' (0, 0) ∈ bases := by
          rw [List.getD_eq_getElem bases (0, 0) (by omega)]
          exact List.getElem_mem _
        have hne : ¬ (b == bases.getD k' (0, 0)) = true := by
          simp only [beq_iff_eq]
          intro h
          rw [← h] at hmem
          exact hnd.1 hmem
        rw [List.count_replicate, if_neg hne,
          ih draws k' hnd.2 (by omega) (by omega)]
        omega

/-- Counting is invariant under permutation (for any `BEq`). -/
lemma count_eq_of_perm {α : Type} [BEq α] {l1 l2 : List α} (h : l1.Perm l2) (a : α) :
    l1.count a = l2.count a := by
  induction h with
  | nil => rfl
  | cons x _ ih => simp [List.count_cons, ih]
  | swap x y l => simp only [List.count_cons]; omega
  | trans _ _ ih1 ih2 => exact ih1.trans ih2

/-- In a duplicate-free list every member has count 1 (for any lawful
`BEq`). -/
lemma count_eq_one_of_nodup_mem {α : Type} [BEq α] [LawfulBEq α] {l : List α}
    {a : α} (hnd : l.Nodup) (ha : a ∈ l) : l.count a = 1 := by
  induction l with
  | nil => cases ha
  | cons b l ih =>
    rw [List.count_cons]
    rcases List.mem_cons.mp ha with rfl | hmem
    · rw [if_pos (beq_self_eq_true a),
        List.count_eq_zero.mpr (List.nodup_cons.mp hnd).1]
    · have hne : ¬ (b == a) = true := by
        simp only [beq_iff_eq]
        rintro rfl
        exact (List.nodup_cons.mp hnd).1 hmem
      rw [if_neg hne, ih (List.nodup_cons.mp hnd).2 hmem]

/-! ### Structure of the two unequal-count builder branches -/

/-- Common core of the two unequal branches: the group loop started on
`bases` with pool `pool`, `bases` strictly smaller, builds blocks of
sizes `q+1` (first `r` bases) and `q` (the rest), consuming the pool
exactly. -/
lemma group_build_struct (mk : Coord → Coord → Entry) ( rand : ℕ → ℕ)
    (bases pool : List Coord) (pairings : List Entry)
    (hb : 0 < bases.length)
    (hres : groupLoop mk rand (higher_number pool.length bases.length)
        (higher_number_count pool.length bases.length) bases 0 0 pool []
      = some pairings) :
    ∃ draws : List (List Coord),
      pairings = (bases.zip draws).flatMap (fun bd => bd.2.map (mk bd.1)) ∧
      draws.length = bases.length ∧
      (∀ k, k < bases.length →
        (draws.getD k []).length =
          if k < pool.length % bases.length
          then pool.length / bases.length + 1
          else pool.length / bases.length) ∧
      ((↑draws.flatten : Multiset Coord) = ↑pool) := by
  have hmod : pool.length % bases.length < bases.length := Nat.mod_lt _ hb
  have hdm : bases.length * (pool.length / bases.length) + pool.length % bases.length
      = pool.length := Nat.div_add_mod _ _
  have hpool : pool.length
      = pool.length % bases.length * higher_number pool.length bases.length
        + (bases.length - pool.length % bases.length)
          * (higher_number pool.length bases.length - 1) := by
    simp only [higher_number, Nat.add_sub_cancel, mul_add_one]
    have hq1 : pool.length % bases.length * (pool.length / bases.length)
        ≤ bases.length * (pool.length / bases.length) :=
      Nat.mul_le_mul_right _ (le_of_lt hmod)
    rw [Nat.sub_mul]
    set A := pool.length % bases.length * (pool.length / bases.length) with hA
    set B := bases.length * (pool.length / bases.length) with hB
    omega
  obtain ⟨draws, heq, hlen, hidx, hms⟩ :=
    groupLoop_spec mk rand (higher_number pool.length bases.length)
      (higher_number_count pool.length bases.length) bases 0 0 pool []
      (pool.length % bases.length)
      (by simp [higher_number_count]) (le_of_lt hmod) hpool
  refine ⟨draws, ?_, hlen, ?_, hms⟩
  · rw [heq] at hres
    simpa using hres.symm
  · intro k hk
    have hcnt := hidx k hk
    rw [Nat.zero_add] at hcnt
    rw [hcnt]
    simp only [higher_number, higher_number_count, Nat.add_sub_cancel]

/-- The `many to one` branch: blocks keyed by target coordinates,
drawing source coordinates. -/
lemma many_to_one_struct (in_pixels out_pixels : List Coord) ( rand : ℕ → ℕ)
    (pairings : List Entry) (h2 : 0 < out_pixels.length)
    (hres : many_to_one_mappings in_pixels out_pixels rand = some pairings) :
    ∃ draws : List (List Coord),
      pairings = (out_pixels.zip draws).flatMap
        (fun bd => bd.2.map (fun p => (p, bd.1))) ∧
      draws.length = out_pixels.length ∧
      (∀ k, k < out_pixels.length →
        (draws.getD k []).length =
          if k < in_pixels.length % out_pixels.length
          then in_pixels.length / out_pixels.length + 1
          else in_pixels.length / out_pixels.length) ∧
      ((↑draws.flatten : Multiset Coord) = ↑in_pixels) := by
  rw [many_to_one_mappings, if_pos h2] at hres
  exact group_build_struct _ rand out_pixels in_pixels pairings h2 hres

/-- The `one to many` branch: blocks keyed by source coordinates,
drawing target coordinates. -/
lemma one_to_many_struct (in_pixels out_pixels : List Coord) ( rand : ℕ → ℕ)
    (pairings : List Entry) (h1 : 0 < in_pixels.length)
    (hres : one_to_many_mappings in_pixels out_pixels rand = some pairings) :
    ∃ draws : List (List Coord),
      pairings = (in_pixels.zip draws).flatMap
        (fun bd => bd.2.map (fun p => (bd.1, p))) ∧
      draws.length = in_pixels.length ∧
      (∀ k, k < in_pixels.length →
        (draws.getD k []).length =
          if k < out_pixels.length % in_pixels.length
          then out_pixels.length / in_pixels.length + 1
          else out_pixels.length / in_pixels.length) ∧
      ((↑draws.flatten : Multiset Coord) = ↑out_pixels) := by
  rw [one_to_many_mappings, if_pos h1] at hres
  exact group_build_struct _ rand in_pixels out_pixels pairings h1 hres

/-! ### The correspondence cardinality invariant -/

/-- The one-pixel `one to one` run computes a single pairing. -/
lemma oneToOneAux_singleton ( rand : ℕ → ℕ) (a b : Coord) :
    oneToOneAux rand 1 0 [a] [b] [] = some [(a, b)] := by
  simp [oneToOneAux, listPop, Nat.mod_one]

/-- Core invariant of every successfully built correspondence, assembled
from the three branches of `get_random_pixel_mappings`. -/
lemma correspondence_invariant
    (in_pixels out_pixels : List Coord) ( rand : ℕ → ℕ) (pairings : List Entry)
    (h1 : 0 < in_pixels.length) (h2 : 0 < out_pixels.length)
    (hnd1 : in_pixels.Nodup) (hnd2 : out_pixels.Nodup)
    (hres : get_random_pixel_mappings in_pixels out_pixels rand = some pairings) :
    pairings.length = max in_pixels.length out_pixels.length ∧
    (out_pixels.length ≤ in_pixels.length →
      ((↑(pairings.map Prod.fst) : Multiset Coord) = ↑in_pixels) ∧
      (∀ c ∈ in_pixels, (pairings.map Prod.fst).count c = 1) ∧
      ∃ hi lo, out_pixels = hi ++ lo ∧
        hi.length = in_pixels.length % out_pixels.length ∧
        (∀ c ∈ hi, (pairings.map Prod.snd).count c
            = in_pixels.length / out_pixels.length + 1) ∧
        (∀ c ∈ lo, (pairings.map Prod.snd).count c
            = in_pixels.length / out_pixels.length)) ∧
    (in_pixels.length ≤ out_pixels.length →
      ((↑(pairings.map Prod.snd) : Multiset Coord) = ↑out_pixels) ∧
      (∀ c ∈ out_pixels, (pairings.map Prod.snd).count c = 1) ∧
      ∃ hi lo, in_pixels = hi ++ lo ∧
        hi.length = out_pixels.length % in_pixels.length ∧
        (∀ c ∈ hi, (pairings.map Prod.fst).count c
            = out_pixels.length / in_pixels.length + 1) ∧
        (∀ c ∈ lo, (pairings.map Prod.fst).count c
            = out_pixels.length / in_pixels.length)) := by
  by_cases heq : in_pixels.length = out_pixels.length
  · -- "one to one": success forces singleton pools
    rw [grpm_eq_one_to_one _ _ rand heq] at hres
    have hn1 : in_pixels.length = 1 := by
      by_contra hne1
      rw [oneToOneAux_none rand _ 0 _ _ _ rfl (by omega) (by omega)] at hres
      exact Option.noConfusion hres
    obtain ⟨a, rfl⟩ := List.length_eq_one.mp hn1
    obtain ⟨b, rfl⟩ := List.length_eq_one.mp (heq ▸ hn1)
    rw [show ([a] : List Coord).length = 1 from rfl, oneToOneAux_singleton] at hres
    obtain rfl : pairings = [(a, b)] := (Option.some.inj hres).symm
    refine ⟨by simp, fun _ => ?_, fun _ => ?_⟩
    · refine ⟨by simp, ?_, [], [b], by simp, by simp, by simp, ?_⟩
      · intro c hc
        simp only [List.mem_singleton] at hc
        subst hc
        simp
      · intro c hc
        simp only [List.mem_singleton] at hc
        subst hc
        simp
    · refine ⟨by simp, ?_, [], [a], by simp, by simp, by simp, ?_⟩
      · intro c hc
        simp only [List.mem_singleton] at hc
        subst hc
        simp
      · intro c hc
        simp only [List.mem_singleton] at hc
        subst hc
        simp
  · by_cases hlt : out_pixels.length < in_pixels.length
    · -- "many to one"
      rw [grpm_eq_many _ _ rand hlt] at hres
      obtain ⟨draws, hpe, hlen, hidx, hms⟩ :=
        many_to_one_struct _ _ rand _ h2 hres
      have hfst : pairings.map Prod.fst = draws.flatten := by
        rw [hpe]
        exact zipFlat_map_drawn (fun b p => (p, b)) Prod.fst (fun b p => rfl)
          out_pixels draws hlen
      have hsnd : pairings.map Prod.snd
          = (out_pixels.zip draws).flatMap
              (fun bd => List.replicate bd.2.length bd.1) := by
        rw [hpe]
        exact zipFlat_map_base (fun b p => (p, b)) Prod.snd (fun b p => rfl)
          out_pixels draws
      have hflatlen : draws.flatten.length = in_pixels.length := by
        have := congrArg Multiset.card hms
        simpa [Multiset.coe_card] using this
      have hplen : pairings.length = in_pixels.length := by
        have := congrArg List.length hfst
        simpa [hflatlen] using this
      have hmod : in_pixels.length % out_pixels.length < out_pixels.length :=
        Nat.mod_lt _ h2
      refine ⟨by rw [hplen, Nat.max_eq_left (le_of_lt hlt)], fun _ => ?_,
        fun hle => absurd hle (by omega)⟩
      refine ⟨by rw [hfst]; exact hms, ?_,
        out_pixels.take (in_pixels.length % out_pixels.length),
        out_pixels.drop (in_pixels.length % out_pixels.length),
        (List.take_append_drop _ _).symm,
        by rw [List.length_take]; omega, ?_, ?_⟩
      · intro c hc
        rw [hfst, count_eq_of_perm (Multiset.coe_eq_coe.mp hms) c]
        exact count_eq_one_of_nodup_mem hnd1 hc
      · intro c hc
        obtain ⟨k, hk, hck⟩ := List.getElem_of_mem hc
        have hkr : k < in_pixels.length % out_pixels.length := by
          rw [List.length_take] at hk
          omega
        have hk2 : k < out_pixels.length := by omega
        have hc_eq : out_pixels.getD k (0, 0) = c := by
          rw [List.getD_eq_getElem _ _ hk2, ← hck, List.getElem_take]
        rw [hsnd, ← hc_eq,
          zipFlat_count_base_idx out_pixels draws k hnd2 hlen hk2,
          hidx k hk2, if_pos hkr]
      · intro c hc
        obtain ⟨k, hk, hck⟩ := List.getElem_of_mem hc
        have hk2 : in_pixels.length % out_pixels.length + k < out_pixels.length := by
          rw [List.length_drop] at hk
          omega
        have hc_eq : out_pixels.getD (in_pixels.length % out_pixels.length + k)
            (0, 0) = c := by
          rw [List.getD_eq_getElem _ _ hk2, ← hck, List.getElem_drop]
        rw [hsnd, ← hc_eq,
          zipFlat_count_base_idx out_pixels draws _ hnd2 hlen hk2,
          hidx _ hk2, if_neg (by omega)]
    · -- "one to many"
      have hlt' : in_pixels.length < out_pixels.length := by omega
      rw [grpm_eq_one_to_many _ _ rand hlt'] at hres
      obtain ⟨draws, hpe, hlen, hidx, hms⟩ :=
        one_to_many_struct _ _ rand _ h1 hres
      have hsnd : pairings.map Prod.snd = draws.flatten := by
        rw [hpe]
        exact zipFlat_map_drawn (fun b p => (b, p)) Prod.snd (fun b p => rfl)
          in_pixels draws hlen
      have hfst : pairings.map Prod.fst
          = (in_pixels.zip draws).flatMap
              (fun bd => List.replicate bd.2.length bd.1) := by
        rw [hpe]
        exact zipFlat_map_base (fun b p => (b, p)) Prod.fst (fun b p => rfl)
          in_pixels draws
      have hflatlen : draws.flatten.length = out_pixels.length := by
        have := congrArg Multiset.card hms
        simpa [Multiset.coe_card] using this
      have hplen : pairings.length = out_pixels.length := by
        have := congrArg List.length hsnd
        simpa [hflatlen] using this
      have hmod : out_pixels.length % in_pixels.length < in_pixels.length :=
        Nat.mod_lt _ h1
      refine ⟨by rw [hplen, Nat.max_eq_right (le_of_lt hlt')],
        fun hle => absurd hle (by omega), fun _ => ?_⟩
      refine ⟨by rw [hsnd]; exact hms, ?_,
        in_pixels.take (out_pixels.length % in_pixels.length),
        in_pixels.drop (out_pixels.length % in_pixels.length),
        (List.take_append_drop _ _).symm,
        by rw [List.length_take]; omega, ?_, ?_⟩
      · intro c hc
        rw [hsnd, count_eq_of_perm (Multiset.coe_eq_coe.mp hms) c]
        exact count_eq_one_of_nodup_mem hnd2 hc
      · intro c hc
        obtain ⟨k, hk, hck⟩ := List.getElem_of_mem hc
        have hkr : k < out_pixels.length % in_pixels.length := by
          rw [List.length_take] at hk
          omega
        have hk2 : k < in_pixels.length := by omega
        have hc_eq : in_pixels.getD k (0, 0) = c := by
          rw [List.getD_eq_getElem _ _ hk2, ← hck, List.getElem_take]
        rw [hfst, ← hc_eq,
          zipFlat_count_base_idx in_pixels draws k hnd1 hlen hk2,
          hidx k hk2, if_pos hkr]
      · intro c hc
        obtain ⟨k, hk, hck⟩ := List.getElem_of_mem hc
        have hk2 : out_pixels.length % in_pixels.length + k < in_pixels.length := by
          rw [List.length_drop] at hk
          omega
        have hc_eq : in_pixels.getD (out_pixels.length % in_pixels.length + k)
            (0, 0) = c := by
          rw [List.getD_eq_getElem _ _ hk2, ← hck, List.getElem_drop]
        rw [hfst, ← hc_eq,
          zipFlat_count_base_idx in_pixels draws _ hnd1 hlen hk2,
          hidx _ hk2, if_neg (by omega)]

/-- C2.  Every correspondence produced by `get_random_pixel_mappings`
(for positive foreground counts on both sides, the pools being
duplicate-free coordinate sets) has length
`max |sourceForeground| |targetForeground|`; every coordinate of the
larger-cardinality set appears exactly once across all entries (its
column is a permutation of that set); and the smaller set splits as
`hi ++ lo` with `|hi| = larger % smaller`, the coordinates of `hi`
appearing with multiplicity `larger / smaller + 1` and those of `lo`
with multiplicity `larger / smaller`. -/
theorem c2_correspondence_cardinality_invariant
    (in_pixels out_pixels : List Coord) ( rand : ℕ → ℕ) (pairings : List Entry)
    (h1 : 0 < in_pixels.length) (h2 : 0 < out_pixels.length)
    (hnd1 : in_pixels.Nodup) (hnd2 : out_pixels.Nodup)
    (hres : get_random_pixel_mappings in_pixels out_pixels rand = some pairings) :
    pairings.length = max in_pixels.length out_pixels.length ∧
    (out_pixels.length ≤ in_pixels.length →
      ((↑(pairings.map Prod.fst) : Multiset Coord) = ↑in_pixels) ∧
      (∀ c ∈ in_pixels, (pairings.map Prod.fst).count c = 1) ∧
      ∃ hi lo, out_pixels = hi ++ lo ∧
        hi.length = in_pixels.length % out_pixels.length ∧
        (∀ c ∈ hi, (pairings.map Prod.snd).count c
            = in_pixels.length / out_pixels.length + 1) ∧
        (∀ c ∈ lo, (pairings.map Prod.snd).count c
            = in_pixels.length / out_pixels.length)) ∧
    (in_pixels.length ≤ out_pixels.length →
      ((↑(pairings.map Prod.snd) : Multiset Coord) = ↑out_pixels) ∧
      (∀ c ∈ out_pixels, (pairings.map Prod.snd).count c = 1) ∧
      ∃ hi lo, in_pixels = hi ++ lo ∧
        hi.length = out_pixels.length % in_pixels.length ∧
        (∀ c ∈ hi, (pairings.map Prod.fst).count c
            = out_pixels.length / in_pixels.length + 1) ∧
        (∀ c ∈ lo, (pairings.map Prod.fst).count c
            = out_pixels.length / in_pixels.length)) :=
  correspondence_invariant in_pixels out_pixels rand pairings h1 h2 hnd1 hnd2 hres

/-- C2, witnessed on Scenario A of the spec: 3 source pixels against 2
target pixels, a concrete random stream, and the correspondence the
embedding computes for it. -/
theorem c2_correspondence_cardinality_invariant_witness :
    get_random_pixel_mappings [(0, 0), (0, 1), (0, 2)] [(3, 0), (3, 3)] (fun _ => 0)
      = some [((0, 0), (3, 0)), ((0, 1), (3, 0)), ((0, 2), (3, 3))] ∧
    ([((0, 0), (3, 0)), ((0, 1), (3, 0)), ((0, 2), (3, 3))] : List Entry).length
      = max ([(0, 0), (0, 1), (0, 2)] : List Coord).length
          ([(3, 0), (3, 3)] : List Coord).length :=
  ⟨by decide,
    (c2_correspondence_cardinality_invariant [(0, 0), (0, 1), (0, 2)]
      [(3, 0), (3, 3)] (fun _ => 0) _ (by decide) (by decide) (by decide)
      (by decide) (by decide)).1⟩

/-- C10.  For strictly positive, unequal foreground counts, the
`many to one` branch is taken only when the source count strictly
exceeds the target count (and `one to many` only in the reverse case),
so the floor multiplicity `q = higher_number - 1 = larger / smaller` is
at least 1, every smaller-side coordinate of any successfully built
correspondence receives at least one entry, and the `q = 0`
under-coverage edge case is unreachable. -/
theorem c10_floor_multiplicity_positive (n1 n2 : ℕ) (h1 : 0 < n1) (h2 : 0 < n2)
    (hne : n1 ≠ n2) :
    (relationshipOf n1 n2 = "many to one" ∨ relationshipOf n1 n2 = "one to many") ∧
    (relationshipOf n1 n2 = "many to one" → n2 < n1 ∧ 1 ≤ higher_number n1 n2 - 1) ∧
    (relationshipOf n1 n2 = "one to many" → n1 < n2 ∧ 1 ≤ higher_number n2 n1 - 1) ∧
    (∀ (in_pixels out_pixels : List Coord) ( rand : ℕ → ℕ) (pairings : List Entry),
      in_pixels.length = n1 → out_pixels.length = n2 →
      in_pixels.Nodup → out_pixels.Nodup →
      get_random_pixel_mappings in_pixels out_pixels rand = some pairings →
      (∀ c ∈ out_pixels, 1 ≤ (pairings.map Prod.snd).count c) ∧
      (∀ c ∈ in_pixels, 1 ≤ (pairings.map Prod.fst).count c)) := by
  have hcounts : ∀ (in_pixels out_pixels : List Coord) ( rand : ℕ → ℕ)
      (pairings : List Entry),
      in_pixels.length = n1 → out_pixels.length = n2 →
      in_pixels.Nodup → out_pixels.Nodup →
      get_random_pixel_mappings in_pixels out_pixels rand = some pairings →
      (∀ c ∈ out_pixels, 1 ≤ (pairings.map Prod.snd).count c) ∧
      (∀ c ∈ in_pixels, 1 ≤ (pairings.map Prod.fst).count c) := by
    intro inp outp rand pairings hl1 hl2 hnd1 hnd2 hres
    obtain ⟨_, hMany, hOne⟩ :=
      correspondence_invariant inp outp rand pairings (by omega) (by omega)
        hnd1 hnd2 hres
    rcases Nat.lt_or_ge outp.length inp.length with hlt | hge
    · obtain ⟨_, hcnt1, hi, lo, hsplit, _, hhi, hlo⟩ := hMany (le_of_lt hlt)
      have hq : 1 ≤ inp.length / outp.length :=
        (Nat.one_le_div_iff (by omega)).mpr (le_of_lt hlt)
      constructor
      · intro c hc
        rw [hsplit] at hc
        rcases List.mem_append.mp hc with hch | hcl
        · rw [hhi c hch]; omega
        · rw [hlo c hcl]; omega
      · intro c hc
        rw [hcnt1 c hc]
    · obtain ⟨_, hcnt1, hi, lo, hsplit, _, hhi, hlo⟩ := hOne hge
      have hq : 1 ≤ outp.length / inp.length :=
        (Nat.one_le_div_iff (by omega)).mpr hge
      constructor
      · intro c hc
        rw [hcnt1 c hc]
      · intro c hc
        rw [hsplit] at hc
        rcases List.mem_append.mp hc with hch | hcl
        · rw [hhi c hch]; omega
        · rw [hlo c hcl]; omega
  rcases Nat.lt_or_ge n2 n1 with hlt | hge
  · refine ⟨Or.inl (relationship_many hlt), fun _ => ⟨hlt, ?_⟩, fun hrel => ?_,
      hcounts⟩
    · simp only [higher_number, Nat.add_sub_cancel]
      exact (Nat.one_le_div_iff h2).mpr (le_of_lt hlt)
    · rw [relationship_many hlt] at hrel
      exact absurd hrel (by decide)
  · have hlt' : n1 < n2 := by omega
    refine ⟨Or.inr (relationship_one_to_many hlt'), fun hrel => ?_,
      fun _ => ⟨hlt', ?_⟩, hcounts⟩
    · rw [relationship_one_to_many hlt'] at hrel
      exact absurd hrel (by decide)
    · simp only [higher_number, Nat.add_sub_cancel]
      exact (Nat.one_le_div_iff h1).mpr (le_of_lt hlt')

/-- C10, witnessed at counts 3 against 2. -/
theorem c10_floor_multiplicity_positive_witness :
    (0 < 3 ∧ 0 < 2 ∧ (3 : ℕ) ≠ 2) ∧
    (relationshipOf 3 2 = "many to one" ∨ relationshipOf 3 2 = "one to many") ∧
    (relationshipOf 3 2 = "many to one" → 2 < 3 ∧ 1 ≤ higher_number 3 2 - 1) :=
  ⟨⟨by decide, by decide, by decide⟩,
    (c10_floor_multiplicity_positive 3 2 (by decide) (by decide) (by decide)).1,
    (c10_floor_multiplicity_positive 3 2 (by decide) (by decide) (by decide)).2.1⟩

/-! ### Mutation-swap invariants -/

lemma list_set_self {α : Type} (L : List α) (n : ℕ) (h : n < L.length) :
    L.set n L[n] = L := by
  apply List.ext_getElem (by simp)
  intro j h1 h2
  rw [List.getElem_set]
  split
  · next heq => subst heq; rfl
  · rfl

lemma mset_set {α : Type} (L : List α) (n : ℕ) (b : α) (h : n < L.length) :
    (↑(L.set n b) : Multiset α) + {L[n]} = ↑L + {b} := by
  rw [List.set_eq_take_cons_drop b h]
  conv_rhs => rw [← List.take_append_drop n L, List.drop_eq_getElem_cons h]
  rw [← Multiset.coe_add, ← Multiset.coe_add, ← Multiset.cons_coe, ← Multiset.cons_coe]
  simp only [← Multiset.singleton_add]
  abel

lemma mset_set_swap {α : Type} (L : List α) (i tp : ℕ) (hi : i < L.length)
    (htp : tp < L.length) :
    (↑((L.set tp L[i]).set i L[tp]) : Multiset α) = ↑L := by
  have h1 : i < (L.set tp L[i]).length := by simpa using hi
  have e1 := mset_set (L.set tp L[i]) i L[tp] h1
  have e2 := mset_set L tp L[i] htp
  have e3 : (L.set tp L[i])[i] = L[i] := by
    rw [List.getElem_set]
    split
    · rfl
    · rfl
  rw [e3] at e1
  exact add_right_cancel (e1.trans e2)

lemma setMov_true (e : Entry) (c : Coord) : setMov true e c = (e.1, c) := rfl

lemma setMov_false (e : Entry) (c : Coord) : setMov false e c = (c, e.2) := rfl

lemma getMov_true (e : Entry) : getMov true e = e.2 := rfl

lemma getMov_false (e : Entry) : getMov false e = e.1 := rfl

lemma setMov_getMov (mov2 : Bool) (e : Entry) :
    setMov mov2 e (getMov mov2 e) = e := by
  cases mov2 <;> simp [setMov, getMov]

/-- The swap written out with reads resolved in program order. -/
lemma swapMovable_eq (mov2 : Bool) (l : List Entry) (i tp : ℕ)
    (hi : i < l.length) (htp : tp < l.length) :
    swapMovable mov2 l i tp
      = (l.set tp (setMov mov2 l[tp] (getMov mov2 l[i]))).set i
          (setMov mov2
            ((l.set tp (setMov mov2 l[tp] (getMov mov2 l[i]))).getD i dEntry)
            (getMov mov2 l[tp])) := by
  simp only [swapMovable]
  rw [List.getD_eq_getElem l dEntry htp, List.getD_eq_getElem l dEntry hi]

lemma swapMovable_self (mov2 : Bool) (l : List Entry) (i : ℕ) (hi : i < l.length) :
    swapMovable mov2 l i i = l := by
  rw [swapMovable_eq mov2 l i i hi hi]
  simp only [setMov_getMov]
  rw [list_set_self l i hi, List.getD_eq_getElem l dEntry hi]
  simp only [setMov_getMov]
  exact list_set_self l i hi

lemma swapMovable_length (mov2 : Bool) (l : List Entry) (i tp : ℕ) :
    (swapMovable mov2 l i tp).length = l.length := by
  unfold swapMovable
  simp [List.length_set]

/-- All invariants of a single endpoint swap: length preserved, both
column multisets preserved, the non-movable column untouched as a list,
entries other than `i` and `tp` untouched, and the self-swap a no-op. -/
lemma swapMovable_spec (mov2 : Bool) (l : List Entry) (i tp : ℕ)
    (hi : i < l.length) (htp : tp < l.length) :
    (swapMovable mov2 l i tp).length = l.length ∧
    ((↑((swapMovable mov2 l i tp).map Prod.fst) : Multiset Coord)
        = ↑(l.map Prod.fst)) ∧
    ((↑((swapMovable mov2 l i tp).map Prod.snd) : Multiset Coord)
        = ↑(l.map Prod.snd)) ∧
    (mov2 = true → (swapMovable mov2 l i tp).map Prod.fst = l.map Prod.fst) ∧
    (mov2 = false → (swapMovable mov2 l i tp).map Prod.snd = l.map Prod.snd) ∧
    (∀ j, j < l.length → j ≠ i → j ≠ tp →
      (swapMovable mov2 l i tp).getD j dEntry = l.getD j dEntry) ∧
    (tp = i → swapMovable mov2 l i tp = l) := by
  by_cases htpi : tp = i
  · subst htpi
    rw [swapMovable_self mov2 l tp hi]
    exact ⟨rfl, rfl, rfl, fun _ => rfl, fun _ => rfl, fun _ _ _ _ => rfl,
      fun _ => rfl⟩
  · have hgi : (l.set tp (setMov mov2 l[tp] (getMov mov2 l[i]))).getD i dEntry
        = l[i] := by
      rw [List.getD_eq_getElem _ dEntry (by simpa using hi)]
      exact List.getElem_set_ne htpi _
    have hkey := swapMovable_eq mov2 l i tp hi htp
    rw [hgi] at hkey
    have hlen := swapMovable_length mov2 l i tp
    have hother : ∀ j, j < l.length → j ≠ i → j ≠ tp →
        (swapMovable mov2 l i tp).getD j dEntry = l.getD j dEntry := by
      intro j hj hji hjtp
      rw [hkey, List.getD_eq_getElem _ dEntry (by simpa using hj),
        List.getD_eq_getElem l dEntry hj,
        List.getElem_set_ne (by omega : i ≠ j),
        List.getElem_set_ne (by omega : tp ≠ j)]
    cases mov2
    · -- source endpoint moves: snd column untouched
      have hsnd_list : (swapMovable false l i tp).map Prod.snd = l.map Prod.snd := by
        have hbtp : tp < (l.map Prod.snd).length := by simpa using htp
        have hbi : i < (l.map Prod.snd).length := by simpa using hi
        rw [hkey]
        simp only [List.map_set, setMov_false, getMov_false]
        rw [show (l[tp].2 : Coord) = (l.map Prod.snd)[tp] from
            (List.getElem_map _).symm,
          show (l[i].2 : Coord) = (l.map Prod.snd)[i] from
            (List.getElem_map _).symm]
        rw [list_set_self _ tp hbtp]
        rw [list_set_self _ i hbi]
      have hfst_mset : (↑((swapMovable false l i tp).map Prod.fst) : Multiset Coord)
          = ↑(l.map Prod.fst) := by
        have hbtp : tp < (l.map Prod.fst).length := by simpa using htp
        have hbi : i < (l.map Prod.fst).length := by simpa using hi
        rw [hkey]
        simp only [List.map_set, setMov_false, getMov_false]
        rw [show (l[i].1 : Coord) = (l.map Prod.fst)[i] from
            (List.getElem_map _).symm,
          show (l[tp].1 : Coord) = (l.map Prod.fst)[tp] from
            (List.getElem_map _).symm]
        exact mset_set_swap (l.map Prod.fst) i tp hbi hbtp
      exact ⟨hlen, hfst_mset, by rw [hsnd_list], fun h => Bool.noConfusion h,
        fun _ => hsnd_list, hother, fun h => absurd h htpi⟩
    · -- target endpoint moves: fst column untouched
      have hfst_list : (swapMovable true l i tp).map Prod.fst = l.map Prod.fst := by
        have hbtp : tp < (l.map Prod.fst).length := by simpa using htp
        have hbi : i < (l.map Prod.fst).length := by simpa using hi
        rw [hkey]
        simp only [List.map_set, setMov_true, getMov_true]
        rw [show (l[tp].1 : Coord) = (l.map Prod.fst)[tp] from
            (List.getElem_map _).symm,
          show (l[i].1 : Coord) = (l.map Prod.fst)[i] from
            (List.getElem_map _).symm]
        rw [list_set_self _ tp hbtp]
        rw [list_set_self _ i hbi]
      have hsnd_mset : (↑((swapMovable true l i tp).map Prod.snd) : Multiset Coord)
          = ↑(l.map Prod.snd) := by
        have hbtp : tp < (l.map Prod.snd).length := by simpa using htp
        have hbi : i < (l.map Prod.snd).length := by simpa using hi
        rw [hkey]
        simp only [List.map_set, setMov_true, getMov_true]
        rw [show (l[i].2 : Coord) = (l.map Prod.snd)[i] from
            (List.getElem_map _).symm,
          show (l[tp].2 : Coord) = (l.map Prod.snd)[tp] from
            (List.getElem_map _).symm]
        exact mset_set_swap (l.map Prod.snd) i tp hbi hbtp
      exact ⟨hlen, by rw [hfst_list], hsnd_mset, fun _ => hfst_list,
        fun h => Bool.noConfusion h, hother, fun h => absurd h htpi⟩

/-- C7.  Each mutation swap exchanges only the movable endpoint between
two entries: the target endpoint when the relationship is OneToOne or
OneToMany (`movesTarget`), the source endpoint for ManyToOne.  Both
column multisets are unchanged (so the cardinality invariant is
preserved), the non-movable column is untouched as a list, entries other
than the two participants are untouched, and a swap whose partner equals
the entry itself leaves the correspondence unchanged. -/
theorem c7_swap_preserves_columns (rel : String) (l : List Entry) (i tp : ℕ)
    (hi : i < l.length) (htp : tp < l.length) :
    (movesTarget "one to one" = true ∧ movesTarget "one to many" = true ∧
      movesTarget "many to one" = false) ∧
    (swapMovable (movesTarget rel) l i tp).length = l.length ∧
    ((↑((swapMovable (movesTarget rel) l i tp).map Prod.fst) : Multiset Coord)
        = ↑(l.map Prod.fst)) ∧
    ((↑((swapMovable (movesTarget rel) l i tp).map Prod.snd) : Multiset Coord)
        = ↑(l.map Prod.snd)) ∧
    (movesTarget rel = true →
      (swapMovable (movesTarget rel) l i tp).map Prod.fst = l.map Prod.fst) ∧
    (movesTarget rel = false →
      (swapMovable (movesTarget rel) l i tp).map Prod.snd = l.map Prod.snd) ∧
    (∀ j, j < l.length → j ≠ i → j ≠ tp →
      (swapMovable (movesTarget rel) l i tp).getD j dEntry = l.getD j dEntry) ∧
    (tp = i → swapMovable (movesTarget rel) l i tp = l) := by
  obtain ⟨h1, h2, h3, h4, h5, h6, h7⟩ :=
    swapMovable_spec (movesTarget rel) l i tp hi htp
  exact ⟨⟨by decide, by decide, by decide⟩, h1, h2, h3, h4, h5, h6, h7⟩

/-- C7, witnessed on a concrete two-entry one-to-one correspondence with
a swap between entries 0 and 1. -/
theorem c7_swap_preserves_columns_witness :
    (0 < ([((0, 0), (1, 1)), ((2, 2), (3, 3))] : List Entry).length ∧
      1 < ([((0, 0), (1, 1)), ((2, 2), (3, 3))] : List Entry).length) ∧
    (swapMovable (movesTarget "one to one")
        [((0, 0), (1, 1)), ((2, 2), (3, 3))] 0 1).length
      = ([((0, 0), (1, 1)), ((2, 2), (3, 3))] : List Entry).length ∧
    (movesTarget "one to one" = true →
      (swapMovable (movesTarget "one to one")
          [((0, 0), (1, 1)), ((2, 2), (3, 3))] 0 1).map Prod.fst
        = ([((0, 0), (1, 1)), ((2, 2), (3, 3))] : List Entry).map Prod.fst) :=
  ⟨⟨by decide, by decide⟩,
    (c7_swap_preserves_columns "one to one" [((0, 0), (1, 1)), ((2, 2), (3, 3))]
      0 1 (by decide) (by decide)).2.1,
    (c7_swap_preserves_columns "one to one" [((0, 0), (1, 1)), ((2, 2), (3, 3))]
      0 1 (by decide) (by decide)).2.2.2.2.1⟩

/-! ### The optimizer generation step -/

lemma foldl_min_le (xs : List ℝ) : ∀ b : ℝ, xs.foldl min b ≤ b := by
  induction xs with
  | nil => intro b; exact le_refl b
  | cons a l ih =>
    intro b
    exact le_trans (ih (min b a)) (min_le_left b a)

lemma listMin_le_head (x : ℝ) (xs : List ℝ) : listMin (x :: xs) ≤ x :=
  foldl_min_le xs x

lemma foldl_min_mem (xs : List ℝ) : ∀ b : ℝ, xs.foldl min b ∈ b :: xs := by
  induction xs with
  | nil => intro b; exact List.mem_singleton.mpr rfl
  | cons a l ih =>
    intro b
    rw [List.foldl_cons]
    rcases List.mem_cons.mp (ih (min b a)) with hh | ht
    · rw [hh]
      rcases min_choice b a with hb | ha
      · rw [hb]
        exact List.mem_cons_self b (a :: l)
      · rw [ha]
        exact List.mem_cons_of_mem b (List.mem_cons_self a l)
    · exact List.mem_cons_of_mem b (List.mem_cons_of_mem a ht)

lemma listMin_mem (x : ℝ) (xs : List ℝ) : listMin (x :: xs) ∈ x :: xs :=
  foldl_min_mem xs x

open Classical in
/-- `scores.index(min(scores))` indeed selects a candidate whose score
is the minimum. -/
lemma getD_findIdx_attains (pop : List (List Entry)) (m : ℝ)
    (hmem : m ∈ pop.map get_score) :
    get_score (pop.getD ((pop.map get_score).findIdx
        (fun x => decide (x = m))) []) = m := by
  have hex : ∃ x ∈ pop.map get_score, (fun x => decide (x = m)) x = true :=
    ⟨m, hmem, by simp⟩
  have hlt := List.findIdx_lt_length_of_exists hex
  have hp := List.findIdx_getElem (w := hlt)
  rw [List.getElem_map] at hp
  have hlt' : (pop.map get_score).findIdx (fun x => decide (x = m))
      < pop.length := by
    rw [List.length_map] at hlt
    exact hlt
  rw [List.getD_eq_getElem pop [] hlt']
  exact of_decide_eq_true hp

/-- C3.  For every generation of the optimizer: the new best cost is at
most the previous best cost, the stagnation counter is reset to 0 on a
strict improvement and incremented by exactly 1 on a tie, convergence is
declared exactly when the counter reaches `convergence_threshold`, the
generation counter increments, and the recorded scores again equal the
score of the adopted pairings (so the hypotheses are re-established for
the next generation). -/
theorem c3_generation_monotonic_stagnation (mov2 : Bool) (dec : ℕ → ℕ → Bool)
    (prt : ℕ → ℕ → ℕ) (population_size convergence_threshold : ℕ) (s : TState)
    (hlast : s.last_best_score = get_score s.pairings)
    (hbest : s.best_score = s.last_best_score)
    (hconv : s.converged = false) (hthr : 0 < convergence_threshold) :
    (mutate mov2 dec prt population_size convergence_threshold s).best_score
        ≤ s.best_score ∧
    ((mutate mov2 dec prt population_size convergence_threshold s).best_score
        < s.best_score →
      (mutate mov2 dec prt population_size convergence_threshold
        s).same_score_count = 0) ∧
    ((mutate mov2 dec prt population_size convergence_threshold s).best_score
        = s.best_score →
      (mutate mov2 dec prt population_size convergence_threshold
        s).same_score_count = s.same_score_count + 1) ∧
    ((mutate mov2 dec prt population_size convergence_threshold s).converged
        = true ↔
      (mutate mov2 dec prt population_size convergence_threshold
        s).same_score_count = convergence_threshold) ∧
    (mutate mov2 dec prt population_size convergence_threshold
        s).last_best_score
      = (mutate mov2 dec prt population_size convergence_threshold
        s).best_score ∧
    (mutate mov2 dec prt population_size convergence_threshold
        s).generation_count = s.generation_count + 1 ∧
    (mutate mov2 dec prt population_size convergence_threshold
        s).last_best_score
      = get_score
        (mutate mov2 dec prt population_size convergence_threshold s).pairings := by
  have hm_le : listMin ((mutatePopulation mov2 dec prt population_size
      s.pairings).map get_score) ≤ s.best_score := by
    rw [hbest, hlast, mutatePopulation, List.map_cons]
    exact listMin_le_head _ _
  have hm_mem : listMin ((mutatePopulation mov2 dec prt population_size
        s.pairings).map get_score)
      ∈ (mutatePopulation mov2 dec prt population_size s.pairings).map
        get_score := by
    rw [mutatePopulation, List.map_cons]
    exact listMin_mem _ _
  have hm_at := getD_findIdx_attains
    (mutatePopulation mov2 dec prt population_size s.pairings) _ hm_mem
  simp only [mutate]
  split_ifs with heq hsame hlt <;> dsimp only
  · -- tie branch, counter reaches the threshold
    refine ⟨by rw [heq, ← hbest], fun hc => absurd (hc.trans_le ?_) (lt_irrefl _),
      fun _ => rfl, by simp [hsame], rfl, rfl, hm_at.symm⟩
    rw [heq, hbest]
  · -- tie branch, counter below the threshold
    refine ⟨by rw [heq, ← hbest], fun hc => absurd (hc.trans_le ?_) (lt_irrefl _),
      fun _ => rfl, by simp [hconv, hsame], rfl, rfl, hm_at.symm⟩
    rw [heq, hbest]
  · -- strict improvement branch
    refine ⟨le_of_lt (by rw [← hbest] at hlt; exact hlt), fun _ => rfl,
      fun hc => absurd (hbest ▸ hc) heq, by simp [hconv]; omega, rfl, rfl, hm_at.symm⟩
  · -- the impossible cost-increase branch
    exact absurd (lt_of_le_of_ne (hbest ▸ hm_le) (hbest ▸ heq)) hlt

/-- C3, witnessed on a one-entry zero-displacement state with
`population_size = 1` and the default threshold 200. -/
theorem c3_generation_monotonic_stagnation_witness :
    ((0 : ℝ) = get_score [((0, 0), (0, 0))] ∧ (0 : ℕ) < 200) ∧
    (mutate true (fun _ _ => false) (fun _ _ => 0) 1 200
        ⟨[((0, 0), (0, 0))], 0, 0, 0, 0, false⟩).best_score
      ≤ (⟨[((0, 0), (0, 0))], 0, 0, 0, 0, false⟩ : TState).best_score ∧
    (mutate true (fun _ _ => false) (fun _ _ => 0) 1 200
        ⟨[((0, 0), (0, 0))], 0, 0, 0, 0, false⟩).generation_count = 0 + 1 := by
  have hscore : (0 : ℝ) = get_score [((0, 0), (0, 0))] := by
    simp [get_score]
  refine ⟨⟨hscore, by norm_num⟩, ?_, ?_⟩
  · exact (c3_generation_monotonic_stagnation true (fun _ _ => false)
      (fun _ _ => 0) 1 200 ⟨[((0, 0), (0, 0))], 0, 0, 0, 0, false⟩ hscore rfl rfl
      (by norm_num)).1
  · exact (c3_generation_monotonic_stagnation true (fun _ _ => false)
      (fun _ _ => 0) 1 200 ⟨[((0, 0), (0, 0))], 0, 0, 0, 0, false⟩ hscore rfl rfl
      (by norm_num)).2.2.2.2.2.1

/-- C4.  The claim says each mutated clone is an independent copy of the
current best, so a clone whose own sampled decisions perform no swap
must equal the pre-generation best.  REFUTED: `new_pairings =
list(self.pairings)` is a shallow copy sharing the entry objects, so
clone 1's swap (entry 0 with partner 1) mutates the shared store and
clone 2 — which performs no swap of its own (its decision stream is
everywhere false) — comes out equal to the mutated clone 1, not to the
pre-generation best. -/
theorem c4_clone_aliasing :
    mutatePopulation true (fun k i => k == 1 && i == 0) (fun _ _ => 1) 3
        [((0, 0), (1, 1)), ((2, 2), (3, 3))]
      = [[((0, 0), (1, 1)), ((2, 2), (3, 3))],
         [((0, 0), (3, 3)), ((2, 2), (1, 1))],
         [((0, 0), (3, 3)), ((2, 2), (1, 1))]] ∧
    ([((0, 0), (3, 3)), ((2, 2), (1, 1))] : List Entry)
      ≠ [((0, 0), (1, 1)), ((2, 2), (3, 3))] :=
  ⟨by decide, by decide⟩

/-! ### The frame sequence -/

/-- C8.  `generate_frames` produces exactly `number_of_frames + 1`
frames, indexed 0 through `number_of_frames`: frame 0 is the unmodified
source image, frame `number_of_frames` the unmodified target image, and
the frames in between are the rendered interpolations. -/
theorem c8_frame_sequence (im1 im2 : Img) (pairings : List Entry)
    (number_of_frames : ℕ) (hn : 1 ≤ number_of_frames) :
    (generate_frames im1 im2 pairings number_of_frames).length
        = number_of_frames + 1 ∧
    (generate_frames im1 im2 pairings number_of_frames)[0]?
        = some (Frame.image im1) ∧
    (generate_frames im1 im2 pairings number_of_frames)[number_of_frames]?
        = some (Frame.image im2) ∧
    (∀ i, 1 ≤ i → i < number_of_frames →
      (generate_frames im1 im2 pairings number_of_frames)[i]?
        = some (Frame.drawn (renderFrame im1 im2 pairings number_of_frames i))) := by
  refine ⟨?_, ?_, ?_, ?_⟩
  · simp only [generate_frames, List.length_append, List.length_map,
      List.length_range', List.length_singleton]
    omega
  · simp [generate_frames]
  · rw [generate_frames, List.getElem?_append_right
      (by simp only [List.length_append, List.length_singleton, List.length_map,
            List.length_range']
          omega)]
    simp only [List.length_append, List.length_singleton, List.length_map,
      List.length_range']
    rw [show number_of_frames - (1 + (number_of_frames - 1)) = 0 from by omega]
    rfl
  · intro i hi1 hi2
    rw [generate_frames, List.getElem?_append]
    rw [if_pos (by simp only [List.length_append, List.length_singleton,
      List.length_map, List.length_range']; omega)]
    rw [List.getElem?_append_right (by simp only [List.length_singleton]; omega)]
    simp only [List.length_singleton]
    rw [List.getElem?_map,
      List.getElem?_range' 1 1 (by omega : i - 1 < number_of_frames - 1)]
    simp only [Option.map_some']
    rw [show 1 + 1 * (i - 1) = i from by omega]

/-- C8, witnessed at `number_of_frames = 2` with concrete 1×1 images. -/
theorem c8_frame_sequence_witness :
    (1 : ℕ) ≤ 2 ∧
    (generate_frames [[(0, 0, 0)]] [[(9, 9, 9)]] [((0, 0), (0, 0))] 2).length
      = 2 + 1 ∧
    (generate_frames [[(0, 0, 0)]] [[(9, 9, 9)]] [((0, 0), (0, 0))] 2)[0]?
      = some (Frame.image [[(0, 0, 0)]]) ∧
    (generate_frames [[(0, 0, 0)]] [[(9, 9, 9)]] [((0, 0), (0, 0))] 2)[2]?
      = some (Frame.image [[(9, 9, 9)]]) :=
  ⟨by decide,
    (c8_frame_sequence [[(0, 0, 0)]] [[(9, 9, 9)]] [((0, 0), (0, 0))] 2
      (by decide)).1,
    (c8_frame_sequence [[(0, 0, 0)]] [[(9, 9, 9)]] [((0, 0), (0, 0))] 2
      (by decide)).2.1,
    (c8_frame_sequence [[(0, 0, 0)]] [[(9, 9, 9)]] [((0, 0), (0, 0))] 2
      (by decide)).2.2.1⟩

/-! ### The drawn points of an intermediate frame -/

lemma renderFrame_points_length (im1 im2 : Img) (pairings : List Entry)
    (n i : ℕ) :
    (renderFrame im1 im2 pairings n i).points.length = pairings.length - 1 := by
  simp [renderFrame]

/-- The `j`-th `draw.point` call of an intermediate frame, written out:
location is (column, row) after the swap on source line 227, each
coordinate and color channel computed as `start + (end - start) * w`. -/
lemma renderFrame_points_getD (im1 im2 : Img) (pairings : List Entry)
    (n i j : ℕ) (hj : j < pairings.length - 1) :
    (renderFrame im1 im2 pairings n i).points.getD j
        (((0 : ℚ), (0 : ℚ)), ((0 : ℤ), 0, 0))
      = ((((pairings.getD j dEntry).1.2 : ℚ)
            + (((pairings.getD j dEntry).2.2 : ℚ)
              - ((pairings.getD j dEntry).1.2 : ℚ)) * ((i : ℚ) / (n : ℚ)),
          ((pairings.getD j dEntry).1.1 : ℚ)
            + (((pairings.getD j dEntry).2.1 : ℚ)
              - ((pairings.getD j dEntry).1.1 : ℚ)) * ((i : ℚ) / (n : ℚ))),
         (truncQ (((pixelAt im1 (pairings.getD j dEntry).1).1 : ℚ)
            + (((pixelAt im2 (pairings.getD j dEntry).2).1 : ℚ)
              - ((pixelAt im1 (pairings.getD j dEntry).1).1 : ℚ))
              * ((i : ℚ) / (n : ℚ))),
          truncQ (((pixelAt im1 (pairings.getD j dEntry).1).2.1 : ℚ)
            + (((pixelAt im2 (pairings.getD j dEntry).2).2.1 : ℚ)
              - ((pixelAt im1 (pairings.getD j dEntry).1).2.1 : ℚ))
              * ((i : ℚ) / (n : ℚ))),
          truncQ (((pixelAt im1 (pairings.getD j dEntry).1).2.2 : ℚ)
            + (((pixelAt im2 (pairings.getD j dEntry).2).2.2 : ℚ)
              - ((pixelAt im1 (pairings.getD j dEntry).1).2.2 : ℚ))
              * ((i : ℚ) / (n : ℚ))))) := by
  have hjp : j < pairings.length := by omega
  have hsp : (pairings.map Prod.fst).getD j (0, 0) = (pairings.getD j dEntry).1 := by
    rw [List.getD_eq_getElem _ _ (by simpa using hjp), List.getElem_map,
      List.getD_eq_getElem _ _ hjp]
  have hep : (pairings.map Prod.snd).getD j (0, 0) = (pairings.getD j dEntry).2 := by
    rw [List.getD_eq_getElem _ _ (by simpa using hjp), List.getElem_map,
      List.getD_eq_getElem _ _ hjp]
  have hsc : ((pairings.map Prod.fst).map (pixelAt im1)).getD j (0, 0, 0)
      = pixelAt im1 (pairings.getD j dEntry).1 := by
    rw [List.getD_eq_getElem _ _ (by simpa using hjp), List.getElem_map,
      List.getElem_map, List.getD_eq_getElem _ _ hjp]
  have hec : ((pairings.map Prod.snd).map (pixelAt im2)).getD j (0, 0, 0)
      = pixelAt im2 (pairings.getD j dEntry).2 := by
    rw [List.getD_eq_getElem _ _ (by simpa using hjp), List.getElem_map,
      List.getElem_map, List.getD_eq_getElem _ _ hjp]
  simp only [renderFrame]
  rw [List.getD_eq_getElem _ _
    (by simp only [List.length_map, List.length_range]; omega)]
  rw [List.getElem_map, List.getElem_range]
  rw [hsp, hep, hsc, hec]

/-- C5 counterexample.  A correspondence with exactly one entry draws
zero points in an intermediate frame (`for j in range(len-1)`), while
the claim as stated requires one point per entry. -/
theorem c5_counterexample :
    (renderFrame [[(0, 0, 0)]] [[(0, 0, 0)]] [((0, 0), (0, 0))] 2 1).points.length
      = 0 ∧
    ([((0, 0), (0, 0))] : List Entry).length = 1 :=
  ⟨by simp [renderFrame], rfl⟩

/-- C5 amended.  For every intermediate frame `i` (`1 ≤ i < n`) the
interpolator draws one point for each of the first `entries - 1`
correspondence entries (one fewer than the entry count — the off-by-one
of source line 224), each drawn at the interpolated position
`sourceCoord + w·(targetCoord − sourceCoord)` with `w = i/n`, placed as
(column, row). -/
theorem c5_frame_draws_all_but_last (im1 im2 : Img) (pairings : List Entry)
    (n i : ℕ) (_h1 : 1 ≤ i) (_h2 : i < n) :
    (renderFrame im1 im2 pairings n i).points.length = pairings.length - 1 ∧
    (∀ j, j < pairings.length - 1 →
      ((renderFrame im1 im2 pairings n i).points.getD j
          (((0 : ℚ), (0 : ℚ)), ((0 : ℤ), 0, 0))).1
        = (interpSpec ((i : ℚ) / (n : ℚ)) ((pairings.getD j dEntry).1.2 : ℚ)
              ((pairings.getD j dEntry).2.2 : ℚ),
           interpSpec ((i : ℚ) / (n : ℚ)) ((pairings.getD j dEntry).1.1 : ℚ)
              ((pairings.getD j dEntry).2.1 : ℚ))) := by
  refine ⟨renderFrame_points_length im1 im2 pairings n i, ?_⟩
  intro j hj
  rw [renderFrame_points_getD im1 im2 pairings n i j hj]
  simp only [interpSpec]
  rw [Prod.mk.injEq]
  constructor <;> ring

/-- C5, witnessed on a two-entry correspondence at `i = 1`, `n = 2`
(both the count and the drawn location of point 0). -/
theorem c5_frame_draws_all_but_last_witness :
    ((1 : ℕ) ≤ 1 ∧ 1 < 2) ∧
    (renderFrame [[(10, 20, 30), (0, 0, 0)]] [[(255, 255, 255), (25, 35, 45)]]
        [((0, 1), (1, 1)), ((0, 0), (9, 9))] 2 1).points.length
      = ([((0, 1), (1, 1)), ((0, 0), (9, 9))] : List Entry).length - 1 ∧
    ((renderFrame [[(10, 20, 30), (0, 0, 0)]] [[(255, 255, 255), (25, 35, 45)]]
        [((0, 1), (1, 1)), ((0, 0), (9, 9))] 2 1).points.getD 0
        (((0 : ℚ), (0 : ℚ)), ((0 : ℤ), 0, 0))).1
      = (interpSpec ((1 : ℚ) / (2 : ℚ))
            ((([((0, 1), (1, 1)), ((0, 0), (9, 9))] : List Entry).getD 0
              dEntry).1.2 : ℚ)
            ((([((0, 1), (1, 1)), ((0, 0), (9, 9))] : List Entry).getD 0
              dEntry).2.2 : ℚ),
         interpSpec ((1 : ℚ) / (2 : ℚ))
            ((([((0, 1), (1, 1)), ((0, 0), (9, 9))] : List Entry).getD 0
              dEntry).1.1 : ℚ)
            ((([((0, 1), (1, 1)), ((0, 0), (9, 9))] : List Entry).getD 0
              dEntry).2.1 : ℚ)) :=
  ⟨⟨by decide, by decide⟩,
    (c5_frame_draws_all_but_last [[(10, 20, 30), (0, 0, 0)]]
      [[(255, 255, 255), (25, 35, 45)]] [((0, 1), (1, 1)), ((0, 0), (9, 9))] 2 1
      (by decide) (by decide)).1,
    (c5_frame_draws_all_but_last [[(10, 20, 30), (0, 0, 0)]]
      [[(255, 255, 255), (25, 35, 45)]] [((0, 1), (1, 1)), ((0, 0), (9, 9))] 2 1
      (by decide) (by decide)).2 0 (by decide)⟩

/-- C9.  For every intermediate frame `i` (`1 ≤ i < n`) and every drawn
point `j`, each color channel equals
`sourceColor + (i/n)·(targetColor − sourceColor)` (colors looked up at
the entry's source coordinate in the source image and target coordinate
in the target image), computed independently per channel and truncated
toward zero by `truncQ` (the `astype(np.int32)` cast), not rounded. -/
theorem c9_color_interpolation (im1 im2 : Img) (pairings : List Entry)
    (n i j : ℕ) (_h1 : 1 ≤ i) (_h2 : i < n) (hj : j < pairings.length - 1) :
    ((renderFrame im1 im2 pairings n i).points.getD j
        (((0 : ℚ), (0 : ℚ)), ((0 : ℤ), 0, 0))).2
      = (truncQ (interpSpec ((i : ℚ) / (n : ℚ))
            ((pixelAt im1 (pairings.getD j dEntry).1).1 : ℚ)
            ((pixelAt im2 (pairings.getD j dEntry).2).1 : ℚ)),
         truncQ (interpSpec ((i : ℚ) / (n : ℚ))
            ((pixelAt im1 (pairings.getD j dEntry).1).2.1 : ℚ)
            ((pixelAt im2 (pairings.getD j dEntry).2).2.1 : ℚ)),
         truncQ (interpSpec ((i : ℚ) / (n : ℚ))
            ((pixelAt im1 (pairings.getD j dEntry).1).2.2 : ℚ)
            ((pixelAt im2 (pairings.getD j dEntry).2).2.2 : ℚ))) := by
  rw [renderFrame_points_getD im1 im2 pairings n i j hj]
  simp only [interpSpec]
  rw [Prod.mk.injEq, Prod.mk.injEq]
  refine ⟨?_, ?_, ?_⟩ <;> · congr 1; ring

/-- C9, witnessed concretely: at weight 1/2 the red channel interpolates
from 10 toward 25, giving 17.5, and is truncated to 17 (not rounded to
18). -/
theorem c9_color_interpolation_witness :
    ((1 : ℕ) ≤ 1 ∧ 1 < 2 ∧ (0 : ℕ) < 2 - 1) ∧
    ((renderFrame [[(10, 20, 30), (0, 0, 0)]] [[(25, 35, 45), (0, 0, 0)]]
        [((0, 0), (0, 0)), ((0, 1), (0, 1))] 2 1).points.getD 0
        (((0 : ℚ), (0 : ℚ)), ((0 : ℤ), 0, 0))).2
      = (truncQ (interpSpec ((1 : ℚ) / (2 : ℚ))
            ((pixelAt [[(10, 20, 30), (0, 0, 0)]]
              (([((0, 0), (0, 0)), ((0, 1), (0, 1))] : List Entry).getD 0
                dEntry).1).1 : ℚ)
            ((pixelAt [[(25, 35, 45), (0, 0, 0)]]
              (([((0, 0), (0, 0)), ((0, 1), (0, 1))] : List Entry).getD 0
                dEntry).2).1 : ℚ)),
         truncQ (interpSpec ((1 : ℚ) / (2 : ℚ))
            ((pixelAt [[(10, 20, 30), (0, 0, 0)]]
              (([((0, 0), (0, 0)), ((0, 1), (0, 1))] : List Entry).getD 0
                dEntry).1).2.1 : ℚ)
            ((pixelAt [[(25, 35, 45), (0, 0, 0)]]
              (([((0, 0), (0, 0)), ((0, 1), (0, 1))] : List Entry).getD 0
                dEntry).2).2.1 : ℚ)),
         truncQ (interpSpec ((1 : ℚ) / (2 : ℚ))
            ((pixelAt [[(10, 20, 30), (0, 0, 0)]]
              (([((0, 0), (0, 0)), ((0, 1), (0, 1))] : List Entry).getD 0
                dEntry).1).2.2 : ℚ)
            ((pixelAt [[(25, 35, 45), (0, 0, 0)]]
              (([((0, 0), (0, 0)), ((0, 1), (0, 1))] : List Entry).getD 0
                dEntry).2).2.2 : ℚ))) ∧
    truncQ (interpSpec ((1 : ℚ) / (2 : ℚ)) (10 : ℚ) (25 : ℚ)) = 17 := by
  refine ⟨⟨by decide, by decide, by decide⟩,
    c9_color_interpolation [[(10, 20, 30), (0, 0, 0)]] [[(25, 35, 45), (0, 0, 0)]]
      [((0, 0), (0, 0)), ((0, 1), (0, 1))] 2 1 0 (by decide) (by decide)
      (by decide), ?_⟩
  rw [show interpSpec ((1 : ℚ) / (2 : ℚ)) (10 : ℚ) (25 : ℚ) = 35 / 2 from by
    rw [interpSpec]; ring]
  rw [truncQ, if_neg (by norm_num)]
  norm_num

end ImageTransformer
